import Mathlib

/-!
Shallow embedding of the text-summarization core of `src/app.py`.

Strings are modelled through their character lists; Python regular-expression
operations (`re.sub(r'\s+', ' ', _)`, `re.split('[.!?]+', _)`,
`re.sub(r'[^\w\s]', ' ', _)`, `re.sub(r'[^\w\s.]', '', _)`) are modelled by
explicit recursive functions over `List Char`.  Python's `dict` is modelled by
an insertion-ordered association list, `sorted` by Mathlib's stable
`List.insertionSort`, and slicing `l[:n]` (with `n` a Python `int`) by
`pyTake`.  The one exception raised inside `extractive_summarize`
(`list.index` on a missing element) is modelled with `Option`.
-/

/-- Characters the sentence splitter treats as terminators (`[.!?]`). -/
def isTerminator (c : Char) : Bool :=
  c = '.' || c = '!' || c = '?'

/-- Python's `\w` word-character class, restricted to ASCII. -/
def isWordChar (c : Char) : Bool :=
  c.isAlphanum || c = '_'

/-- Model of `re.sub(r'\s+', ' ', text)`: each maximal whitespace run is
replaced by a single space. -/
def collapseWsList : List Char → List Char
  | [] => []
  | [c] => if c.isWhitespace then [' '] else [c]
  | c :: d :: rest =>
    if c.isWhitespace && d.isWhitespace then collapseWsList (d :: rest)
    else (if c.isWhitespace then ' ' else c) :: collapseWsList (d :: rest)

/-- Model of `re.split` on a one-or-more character class (`[.!?]+` or `\s+`):
splits a character list at maximal runs of characters satisfying `p`.  Like
`re.split`, it yields an empty fragment for a leading or trailing run and
never merges fragments across a run. -/
def splitRuns (p : Char → Bool) : List Char → List (List Char)
  | [] => [[]]
  | c :: cs =>
    if p c then
      match cs with
      | [] => [[], []]
      | d :: rest =>
        if p d then splitRuns p (d :: rest)
        else [] :: splitRuns p (d :: rest)
    else
      match splitRuns p cs with
      | [] => [[c]]
      | f :: fs => (c :: f) :: fs

/-- Model of Python's `str.strip()` on character lists. -/
def trimL (l : List Char) : List Char :=
  ((l.dropWhile Char.isWhitespace).reverse.dropWhile Char.isWhitespace).reverse

/-- Model of Python's no-argument `str.split()`: split on whitespace runs,
discarding empty fragments. -/
def pySplitWs (l : List Char) : List (List Char) :=
  (splitRuns Char.isWhitespace l).filter (fun f => !f.isEmpty)

/-- `text.split()` as a list of strings (used for the word-count check). -/
def pyWords (text : String) : List String :=
  (pySplitWs text.toList).map String.mk

/-- `simple_sentence_tokenize` from `src/app.py`: collapse whitespace, split
on runs of `.`, `!`, `?`, keep the fragments whose strip is non-empty, and
strip each survivor. -/
def simple_sentence_tokenize (text : String) : List String :=
  ((splitRuns isTerminator (collapseWsList text.toList)).filter
      (fun f => !(trimL f).isEmpty)).map (fun f => String.mk (trimL f))

/-- `simple_word_tokenize` from `src/app.py`: replace every character that is
neither a word character nor whitespace by a space, lowercase, then split on
whitespace. -/
def simple_word_tokenize (text : String) : List String :=
  (pySplitWs ((text.toList.map
      (fun c => if isWordChar c || c.isWhitespace then c else ' ')).map
        Char.toLower)).map String.mk

/-- An apostrophe as a string (several stop words contain one). -/
def apos : String := String.singleton (Char.ofNat 39)

/-- The stop-word set of `TextSummarizer.__init__` in `src/app.py`. -/
def stop_words : List String :=
  ["i", "me", "my", "myself", "we", "our", "ours", "ourselves", "you",
   "you" ++ apos ++ "re", "you" ++ apos ++ "ve", "you" ++ apos ++ "ll",
   "you" ++ apos ++ "d", "your", "yours", "yourself",
   "yourselves", "he", "him", "his", "himself", "she", "she" ++ apos ++ "s",
   "her", "hers", "herself", "it", "it" ++ apos ++ "s", "its", "itself",
   "they", "them", "their", "theirs", "themselves", "what", "which", "who",
   "whom"]

/-- Python `dict` assignment `d[k] = v`: update in place if the key is
present (keeping its position), otherwise append. -/
def dictInsert (d : List (String × Nat)) (k : String) (v : Nat) :
    List (String × Nat) :=
  match d with
  | [] => [(k, v)]
  | p :: ps => if p.1 = k then (k, v) :: ps else p :: dictInsert ps k v

/-- Python `d.get(k)` / `k in d` on the association-list dictionary model. -/
def dictGet? (d : List (String × Nat)) (k : String) : Option Nat :=
  match d with
  | [] => none
  | p :: ps => if p.1 = k then some p.2 else dictGet? ps k

/-- The keys of the dictionary model, in insertion order. -/
def dictKeys (d : List (String × Nat)) : List String :=
  d.map Prod.fst

/-- The filtered word stream of `extractive_summarize`
(`word not in self.stop_words and word.strip()`). -/
def filteredWords (text : String) : List String :=
  (simple_word_tokenize text).filter
    (fun w => decide (w ∉ stop_words) && !(trimL w.toList).isEmpty)

/-- The document-wide frequency table `word_freq` of `extractive_summarize`. -/
def word_freq (text : String) : List (String × Nat) :=
  (filteredWords text).foldl
    (fun d w => dictInsert d w ((dictGet? d w).getD 0 + 1)) []

/-- The per-sentence score loop of `extractive_summarize`: sum the frequency
of each sentence token that is a key of `freq`. -/
def sentence_score (freq : List (String × Nat)) (s : String) : Nat :=
  (simple_word_tokenize s).foldl
    (fun acc w =>
      if (dictGet? freq w).isSome then acc + (dictGet? freq w).getD 0
      else acc) 0

/-- The `sentence_scores` dictionary of `extractive_summarize`. -/
def sentence_scores (text : String) : List (String × Nat) :=
  (simple_sentence_tokenize text).foldl
    (fun d s =>
      if !(trimL s.toList).isEmpty then
        dictInsert d s (sentence_score (word_freq text) s)
      else d) []

/-- Comparison used by `sorted(..., key=lambda x: x[1], reverse=True)`. -/
def scoreDescLe (a b : String × Nat) : Prop := b.2 ≤ a.2

instance : DecidableRel scoreDescLe := fun a b => Nat.decLe b.2 a.2

instance : IsTotal (String × Nat) scoreDescLe :=
  ⟨fun a b => Nat.le_total b.2 a.2⟩

instance : IsTrans (String × Nat) scoreDescLe :=
  ⟨fun _ _ _ h h' => Nat.le_trans h' h⟩

/-- Comparison used by `sorted(..., key=lambda x: sentences.index(x[0]))`
after decorating each pair with its index. -/
def idxLe (a b : Nat × String) : Prop := a.1 ≤ b.1

instance : DecidableRel idxLe := fun a b => Nat.decLe a.1 b.1

instance : IsTotal (Nat × String) idxLe := ⟨fun a b => Nat.le_total a.1 b.1⟩

instance : IsTrans (Nat × String) idxLe :=
  ⟨fun _ _ _ h h' => Nat.le_trans h h'⟩

/-- Python slice `l[:n]` for an `int` index `n` (negative `n` counts from
the end, clamped at zero). -/
def pyTake (n : Int) (l : List α) : List α :=
  if 0 ≤ n then l.take n.toNat else l.take (l.length - n.natAbs)

/-- `summary_sentences` of `extractive_summarize`: the sentence/score pairs
sorted by score descending (stably), truncated to the requested count. -/
def summary_sentences (text : String) (n : Int) : List (String × Nat) :=
  pyTake n (List.insertionSort scoreDescLe (sentence_scores text))

/-- Python's `list.index`, which raises when the element is absent;
the failure is modelled with `Option`. -/
def indexOf? (l : List String) (s : String) : Option Nat :=
  match l with
  | [] => none
  | t :: ts => if t = s then some 0 else (indexOf? ts s).map (· + 1)

/-- `Option`-valued `List.map`, failing when any element fails. -/
def mapOpt (f : α → Option β) : List α → Option (List β)
  | [] => some []
  | x :: xs =>
    match f x, mapOpt f xs with
    | some y, some ys => some (y :: ys)
    | _, _ => none

/-- The `ordered_summary` list of `extractive_summarize`: the selected
sentences re-sorted by `sentences.index`.  `none` models the `ValueError`
raised by `list.index` when a scored key is not among the sentences. -/
def ordered_summary (sentences : List String) (top : List (String × Nat)) :
    Option (List String) :=
  match mapOpt (fun p => (indexOf? sentences p.1).map (fun i => (i, p.1))) top with
  | some keyed => some ((List.insertionSort idxLe keyed).map Prod.snd)
  | none => none

/-- `preprocess_text` from `src/app.py`: collapse whitespace, remove every
character outside `[\w\s.]`, then strip. -/
def preprocess_text (text : String) : String :=
  String.mk (trimL ((collapseWsList text.toList).filter
    (fun c => isWordChar c || c.isWhitespace || c = '.')))

/-- `extractive_summarize` from `src/app.py`.  The final string of the
error branch stands for the `except` clause's
`"Error in extractive summarization: ..."` message. -/
def extractive_summarize (text : String) (n : Int) : String :=
  if text = "" ∨ (pyWords text).length < 10 then
    "Text is too short to summarize."
  else if ((simple_sentence_tokenize text).length : Int) ≤ n then text
  else
    match ordered_summary (simple_sentence_tokenize text)
        (summary_sentences text n) with
    | some l => String.intercalate " " l
    | none => "Error in extractive summarization: x is not in list"

/-- The list of sentences appearing in the extractive summary, in output
order (the join of this list is the summary in the selection branch; in the
`len(sentences) <= num_sentences` branch the code returns the raw text,
whose sentence sequence is the full sentence list). -/
def summary_list (text : String) (n : Int) : List String :=
  if ((simple_sentence_tokenize text).length : Int) ≤ n then
    simple_sentence_tokenize text
  else (ordered_summary (simple_sentence_tokenize text)
    (summary_sentences text n)).getD []

/-- The prompt template of `abstractive_summarize`. -/
def abstractivePrompt (text : String) : String :=
  "Please provide a concise summary of the following text. " ++
  "Focus on the main points and key insights while maintaining clarity and coherence: " ++
  text ++ " Summary:"

/-- `abstractive_summarize` from `src/app.py`.  The external Groq chat
completion is modelled by the function argument `respond`, mapping the
prompt to the service's reply. -/
def abstractive_summarize (respond : String → String) (text : String) : String :=
  if text = "" ∨ (pyWords text).length < 10 then
    "Text is too short to summarize."
  else respond (abstractivePrompt text)

/-! ### Basic lemmas about trimming -/

/-- The right-trim used by `trimL`. -/
def rdropWs (l : List Char) : List Char :=
  (l.reverse.dropWhile Char.isWhitespace).reverse

theorem trimL_eq_rdropWs (l : List Char) :
    trimL l = rdropWs (l.dropWhile Char.isWhitespace) := rfl

theorem dropWhile_head_false {p : α → Bool} :
    ∀ {l c rest}, List.dropWhile p l = c :: rest → p c = false := by
  intro l
  induction l with
  | nil => intro c rest h; simp [List.dropWhile] at h
  | cons a as ih =>
    intro c rest h
    by_cases hp : p a
    · rw [List.dropWhile_cons_of_pos hp] at h
      exact ih h
    · rw [List.dropWhile_cons_of_neg hp] at h
      cases h
      simpa using hp

theorem dropWhile_dropWhile {p : α → Bool} (l : List α) :
    List.dropWhile p (List.dropWhile p l) = List.dropWhile p l := by
  cases h : List.dropWhile p l with
  | nil => simp
  | cons c rest =>
    have hc := dropWhile_head_false h
    simp [List.dropWhile, hc]

theorem rdropWs_rdropWs (l : List Char) : rdropWs (rdropWs l) = rdropWs l := by
  unfold rdropWs
  rw [List.reverse_reverse, dropWhile_dropWhile]

theorem rdropWs_decomp (l : List Char) : ∃ t, l = rdropWs l ++ t := by
  refine ⟨(l.reverse.takeWhile Char.isWhitespace).reverse, ?_⟩
  unfold rdropWs
  rw [← List.reverse_append, List.takeWhile_append_dropWhile, List.reverse_reverse]

theorem mem_rdropWs {a : Char} {l : List Char} (h : a ∈ rdropWs l) : a ∈ l := by
  obtain ⟨t, ht⟩ := rdropWs_decomp l
  rw [ht]
  exact List.mem_append_left _ h

theorem mem_trimL {a : Char} {l : List Char} (h : a ∈ trimL l) : a ∈ l := by
  rw [trimL_eq_rdropWs] at h
  have h' := mem_rdropWs h
  have hd : l.takeWhile Char.isWhitespace ++ l.dropWhile Char.isWhitespace = l :=
    List.takeWhile_append_dropWhile Char.isWhitespace l
  rw [← hd]
  exact List.mem_append_right _ h'

theorem dropWhile_rdropWs_dropWhile (l : List Char) :
    List.dropWhile Char.isWhitespace (rdropWs (List.dropWhile Char.isWhitespace l))
      = rdropWs (List.dropWhile Char.isWhitespace l) := by
  cases h : rdropWs (List.dropWhile Char.isWhitespace l) with
  | nil => simp
  | cons c rest =>
    obtain ⟨t, ht⟩ := rdropWs_decomp (List.dropWhile Char.isWhitespace l)
    rw [h] at ht
    have hc : Char.isWhitespace c = false := dropWhile_head_false ht
    simp [List.dropWhile, hc]

theorem trimL_trimL (l : List Char) : trimL (trimL l) = trimL l := by
  rw [trimL_eq_rdropWs, trimL_eq_rdropWs, dropWhile_rdropWs_dropWhile,
    rdropWs_rdropWs]


/-! ### Lemmas about `splitRuns` and `collapseWsList` -/

theorem splitRuns_nil (p : Char → Bool) : splitRuns p [] = [[]] := rfl

theorem splitRuns_single_term {p : Char → Bool} {a : Char} (ha : p a = true) :
    splitRuns p [a] = [[], []] := by
  conv_lhs => rw [splitRuns]
  rw [if_pos ha]

theorem splitRuns_term_term {p : Char → Bool} {a b : Char} {l : List Char}
    (ha : p a = true) (hb : p b = true) :
    splitRuns p (a :: b :: l) = splitRuns p (b :: l) := by
  conv_lhs => rw [splitRuns]
  rw [if_pos ha]
  show (if p b = true then splitRuns p (b :: l)
    else [] :: splitRuns p (b :: l)) = splitRuns p (b :: l)
  rw [if_pos hb]

theorem splitRuns_term_nonterm {p : Char → Bool} {a b : Char} {l : List Char}
    (ha : p a = true) (hb : p b = false) :
    splitRuns p (a :: b :: l) = [] :: splitRuns p (b :: l) := by
  conv_lhs => rw [splitRuns]
  rw [if_pos ha]
  show (if p b = true then splitRuns p (b :: l)
    else [] :: splitRuns p (b :: l)) = [] :: splitRuns p (b :: l)
  rw [if_neg (by simp [hb])]

theorem splitRuns_nonterm {p : Char → Bool} {a : Char} {cs f : List Char}
    {fs : List (List Char)} (ha : p a = false)
    (h : splitRuns p cs = f :: fs) :
    splitRuns p (a :: cs) = (a :: f) :: fs := by
  cases cs with
  | nil =>
    have h' : ([[]] : List (List Char)) = f :: fs := h
    cases h'
    rw [splitRuns.eq_2, if_neg (by simp [ha])]
    rfl
  | cons d rest =>
    rw [splitRuns.eq_3, if_neg (by simp [ha]), h]

theorem splitRuns_ne_nil (p : Char → Bool) : ∀ l, splitRuns p l ≠ [] := by
  intro l
  induction l with
  | nil => simp [splitRuns]
  | cons c cs ih =>
    cases hp : p c with
    | false =>
      obtain ⟨f, fs, h⟩ : ∃ f fs, splitRuns p cs = f :: fs := by
        cases h : splitRuns p cs with
        | nil => exact absurd h ih
        | cons f fs => exact ⟨f, fs, rfl⟩
      rw [splitRuns_nonterm hp h]
      simp
    | true =>
      cases cs with
      | nil =>
        rw [splitRuns_single_term hp]
        simp
      | cons d rest =>
        cases hd : p d with
        | false =>
          rw [splitRuns_term_nonterm hp hd]
          simp
        | true =>
          rw [splitRuns_term_term hp hd]
          exact ih

theorem splitRuns_shape (p : Char → Bool) (l : List Char) :
    ∃ f fs, splitRuns p l = f :: fs := by
  cases h : splitRuns p l with
  | nil => exact absurd h (splitRuns_ne_nil p l)
  | cons f fs => exact ⟨f, fs, rfl⟩

theorem splitRuns_append_term {p : Char → Bool} {c : Char} (hc : p c = true) :
    ∀ l, splitRuns p (l ++ [c]) = splitRuns p l ++ [[]]
       ∨ splitRuns p (l ++ [c]) = splitRuns p l := by
  intro l
  induction l with
  | nil =>
    left
    rw [List.nil_append, splitRuns_single_term hc, splitRuns_nil]
    rfl
  | cons a as ih =>
    rw [List.cons_append]
    cases ha : p a with
    | false =>
      obtain ⟨f, fs, hshape⟩ := splitRuns_shape p as
      rcases ih with h | h
      · left
        rw [hshape] at h
        rw [splitRuns_nonterm ha (by rw [h]; rfl), splitRuns_nonterm ha hshape]
        rfl
      · right
        rw [hshape] at h
        rw [splitRuns_nonterm ha h, splitRuns_nonterm ha hshape]
    | true =>
      cases as with
      | nil =>
        right
        rw [List.nil_append, splitRuns_term_term ha hc,
          splitRuns_single_term hc, splitRuns_single_term ha]
      | cons b bs =>
        rw [List.cons_append]
        cases hb : p b with
        | true =>
          rw [splitRuns_term_term ha hb, splitRuns_term_term ha hb]
          rw [List.cons_append] at ih
          exact ih
        | false =>
          rw [splitRuns_term_nonterm ha hb, splitRuns_term_nonterm ha hb]
          rw [List.cons_append] at ih
          rcases ih with h | h
          · left; rw [h]; rfl
          · right; rw [h]

theorem collapseWsList_append_nonWs {c : Char} (hc : c.isWhitespace = false) :
    ∀ l, collapseWsList (l ++ [c]) = collapseWsList l ++ [c] := by
  intro l
  induction l with
  | nil => simp [collapseWsList, hc]
  | cons a as ih =>
    cases as with
    | nil =>
      cases ha : a.isWhitespace <;>
        simp [collapseWsList, ha, hc]
    | cons b bs =>
      simp only [List.cons_append]
      simp only [List.cons_append] at ih
      rw [collapseWsList.eq_3, collapseWsList.eq_3]
      by_cases hab : (a.isWhitespace && b.isWhitespace) = true
      · rw [if_pos hab, if_pos hab]
        exact ih
      · rw [if_neg hab, if_neg hab, ih, List.cons_append]

/-! ### Lemmas about the sentence tokenizer -/

theorem toList_mk (l : List Char) : (String.mk l).toList = l := rfl

theorem mem_simple_sentence_tokenize {text : String} {s : String}
    (h : s ∈ simple_sentence_tokenize text) :
    s.toList ≠ [] ∧ trimL s.toList = s.toList := by
  unfold simple_sentence_tokenize at h
  obtain ⟨f, hf, rfl⟩ := List.mem_map.mp h
  have hpred := List.of_mem_filter hf
  rw [toList_mk]
  refine ⟨?_, trimL_trimL f⟩
  intro hnil
  rw [hnil] at hpred
  simp at hpred

theorem simple_sentence_tokenize_append_dot (text : String) :
    simple_sentence_tokenize (text ++ ".") = simple_sentence_tokenize text := by
  unfold simple_sentence_tokenize
  rw [show (text ++ ".").toList = text.toList ++ ['.'] from rfl]
  rw [collapseWsList_append_nonWs (by decide)]
  rcases @splitRuns_append_term isTerminator '.' (by decide)
      (collapseWsList text.toList) with h | h
  · rw [h, List.filter_append]
    have hnil : List.filter (fun f => !(trimL f).isEmpty) [[]] = [] := rfl
    rw [hnil, List.append_nil]
  · rw [h]

/-! ### Lemmas about the dictionary model -/

theorem dictKeys_dictInsert (d : List (String × Nat)) (k : String) (v : Nat) :
    dictKeys (dictInsert d k v)
      = if k ∈ dictKeys d then dictKeys d else dictKeys d ++ [k] := by
  induction d with
  | nil => simp [dictInsert, dictKeys]
  | cons p ps ih =>
    by_cases hpk : p.1 = k
    · subst hpk
      simp [dictInsert, dictKeys]
    · rw [show dictInsert (p :: ps) k v = p :: dictInsert ps k v by
        rw [dictInsert.eq_2, if_neg hpk]]
      show p.1 :: dictKeys (dictInsert ps k v) = _
      rw [ih]
      by_cases hmem : k ∈ dictKeys ps
      · rw [if_pos hmem]
        have h2 : k ∈ dictKeys (p :: ps) := by
          show k ∈ p.1 :: dictKeys ps
          exact List.mem_cons_of_mem _ hmem
        rw [if_pos h2]
        rfl
      · have : ¬ k ∈ dictKeys (p :: ps) := by
          simp [dictKeys] at hmem ⊢
          exact ⟨fun he => hpk he.symm, hmem⟩
        simp only [hmem, if_neg this, if_neg hmem]
        rfl

theorem mem_dictKeys_dictInsert {d : List (String × Nat)} {k a : String}
    {v : Nat} (h : a ∈ dictKeys (dictInsert d k v)) :
    a ∈ dictKeys d ∨ a = k := by
  rw [dictKeys_dictInsert] at h
  by_cases hmem : k ∈ dictKeys d
  · rw [if_pos hmem] at h
    exact Or.inl h
  · rw [if_neg hmem] at h
    rcases List.mem_append.mp h with h' | h'
    · exact Or.inl h'
    · exact Or.inr (List.mem_singleton.mp h')

theorem nodup_dictKeys_dictInsert {d : List (String × Nat)} {k : String}
    {v : Nat} (h : (dictKeys d).Nodup) :
    (dictKeys (dictInsert d k v)).Nodup := by
  rw [dictKeys_dictInsert]
  by_cases hmem : k ∈ dictKeys d
  · rwa [if_pos hmem]
  · rw [if_neg hmem]
    rw [List.nodup_append]
    exact ⟨h, List.nodup_singleton k, by
      intro a ha hak
      rw [List.mem_singleton.mp hak] at ha
      exact hmem ha⟩

theorem dictGet?_eq_none_of_not_mem {d : List (String × Nat)} {k : String}
    (h : k ∉ dictKeys d) : dictGet? d k = none := by
  induction d with
  | nil => rfl
  | cons p ps ih =>
    have hk : ¬ p.1 = k := by
      intro he
      exact h (by simp [dictKeys, he])
    rw [dictGet?, if_neg hk]
    exact ih (fun hm => h (by simp [dictKeys] at hm ⊢; exact Or.inr hm))

/-- Invariant of the dictionary-building folds of `extractive_summarize`:
each step either keeps the dictionary or inserts the current list element
as a key, so the key list stays duplicate-free and every key comes from
the traversed list (or the initial dictionary). -/
theorem dict_foldl_keys (step : List (String × Nat) → String → List (String × Nat))
    (hstep : ∀ d x, step d x = d ∨ ∃ v, step d x = dictInsert d x v) :
    ∀ (xs : List String) (d : List (String × Nat)),
      ((dictKeys d).Nodup → (dictKeys (xs.foldl step d)).Nodup)
      ∧ (∀ k ∈ dictKeys (xs.foldl step d), k ∈ dictKeys d ∨ k ∈ xs) := by
  intro xs
  induction xs with
  | nil => exact fun d => ⟨fun h => h, fun k hk => Or.inl hk⟩
  | cons x xs ih =>
    intro d
    rw [List.foldl_cons]
    constructor
    · intro hnd
      refine (ih (step d x)).1 ?_
      rcases hstep d x with h | ⟨v, h⟩
      · rwa [h]
      · rw [h]
        exact nodup_dictKeys_dictInsert hnd
    · intro k hk
      rcases (ih (step d x)).2 k hk with h | h
      · rcases hstep d x with h' | ⟨v, h'⟩
        · rw [h'] at h
          exact Or.inl h
        · rw [h'] at h
          rcases mem_dictKeys_dictInsert h with h'' | h''
          · exact Or.inl h''
          · exact Or.inr (by simp [h''])
      · exact Or.inr (List.mem_cons_of_mem x h)

theorem sentence_scores_keys_nodup (text : String) :
    (dictKeys (sentence_scores text)).Nodup := by
  unfold sentence_scores
  refine (dict_foldl_keys _ ?_ (simple_sentence_tokenize text) []).1 (by simp [dictKeys])
  intro d s
  by_cases h : (!(trimL s.toList).isEmpty) = true
  · exact Or.inr ⟨sentence_score (word_freq text) s, by rw [if_pos h]⟩
  · exact Or.inl (by rw [if_neg h])

theorem sentence_scores_keys_sub {text : String} {k : String}
    (h : k ∈ dictKeys (sentence_scores text)) :
    k ∈ simple_sentence_tokenize text := by
  unfold sentence_scores at h
  have := (dict_foldl_keys _ (fun d s => by
    by_cases hc : (!(trimL s.toList).isEmpty) = true
    · exact Or.inr ⟨sentence_score (word_freq text) s, by rw [if_pos hc]⟩
    · exact Or.inl (by rw [if_neg hc])) (simple_sentence_tokenize text) []).2 k h
  rcases this with h' | h'
  · simp [dictKeys] at h'
  · exact h'

theorem word_freq_keys_sub {text : String} {k : String}
    (h : k ∈ dictKeys (word_freq text)) : k ∈ filteredWords text := by
  unfold word_freq at h
  have := (dict_foldl_keys _ (fun d w =>
    Or.inr ⟨(dictGet? d w).getD 0 + 1, rfl⟩) (filteredWords text) []).2 k h
  rcases this with h' | h'
  · simp [dictKeys] at h'
  · exact h'

/-! ### Lemmas about `indexOf?`, `mapOpt` and `ordered_summary` -/

theorem indexOf?_isSome_of_mem {l : List String} {s : String} (h : s ∈ l) :
    ∃ i, indexOf? l s = some i := by
  induction l with
  | nil => simp at h
  | cons t ts ih =>
    by_cases ht : t = s
    · exact ⟨0, by rw [indexOf?, if_pos ht]⟩
    · have hs : s ∈ ts := by
        rcases List.mem_cons.mp h with h' | h'
        · exact absurd h'.symm ht
        · exact h'
      obtain ⟨i, hi⟩ := ih hs
      exact ⟨i + 1, by rw [indexOf?, if_neg ht, hi]; rfl⟩

theorem indexOf?_inj {l : List String} :
    ∀ {a b : String} {i : Nat},
      indexOf? l a = some i → indexOf? l b = some i → a = b := by
  induction l with
  | nil => intro a b i ha; simp [indexOf?] at ha
  | cons t ts ih =>
    intro a b i ha hb
    by_cases hta : t = a
    · rw [indexOf?, if_pos hta] at ha
      have hi0 : i = 0 := by
        have := Option.some.inj ha
        omega
      by_cases htb : t = b
      · rw [← hta, htb]
      · rw [indexOf?, if_neg htb] at hb
        rcases Option.map_eq_some'.mp hb with ⟨j, _, hj⟩
        omega
    · rw [indexOf?, if_neg hta] at ha
      rcases Option.map_eq_some'.mp ha with ⟨ja, hja, hja'⟩
      by_cases htb : t = b
      · rw [indexOf?, if_pos htb] at hb
        have := Option.some.inj hb
        omega
      · rw [indexOf?, if_neg htb] at hb
        rcases Option.map_eq_some'.mp hb with ⟨jb, hjb, hjb'⟩
        have hjj : ja = jb := by omega
        exact ih hja (hjj ▸ hjb)

theorem mapOpt_isSome {f : α → Option β} :
    ∀ {l : List α}, (∀ x ∈ l, f x ≠ none) → ∃ ys, mapOpt f l = some ys := by
  intro l
  induction l with
  | nil => exact fun _ => ⟨[], rfl⟩
  | cons x xs ih =>
    intro h
    obtain ⟨ys, hys⟩ := ih (fun a ha => h a (List.mem_cons_of_mem x ha))
    cases hx : f x with
    | none => exact absurd hx (h x (List.mem_cons_self x xs))
    | some y =>
      refine ⟨y :: ys, ?_⟩
      rw [show mapOpt f (x :: xs) = (match f x, mapOpt f xs with
        | some y, some ys => some (y :: ys)
        | _, _ => none) from rfl, hx, hys]

/-- Unfolding lemma for `mapOpt` on a cons cell whose head and tail both
succeed. -/
theorem mapOpt_cons_some {f : α → Option β} {x : α} {xs : List α} {y : β}
    {ys : List β} (hx : f x = some y) (hm : mapOpt f xs = some ys) :
    mapOpt f (x :: xs) = some (y :: ys) := by
  rw [mapOpt, hx, hm]

theorem mapOpt_cons_split {f : α → Option β} {x : α} {xs : List α}
    {zs : List β} (h : mapOpt f (x :: xs) = some zs) :
    ∃ y ys, f x = some y ∧ mapOpt f xs = some ys ∧ zs = y :: ys := by
  rw [mapOpt] at h
  cases hx : f x with
  | none =>
    rw [hx] at h
    cases hm : mapOpt f xs with
    | none => rw [hm] at h; cases h
    | some ys => rw [hm] at h; cases h
  | some y =>
    cases hm : mapOpt f xs with
    | none => rw [hx, hm] at h; cases h
    | some ys =>
      rw [hx, hm] at h
      exact ⟨y, ys, rfl, rfl, (Option.some.inj h).symm⟩

/-- The decoration function used inside `ordered_summary`. -/
def keyFn (sents : List String) (p : String × Nat) : Option (Nat × String) :=
  (indexOf? sents p.1).map (fun i => (i, p.1))

theorem keyed_props {sents : List String} :
    ∀ {top : List (String × Nat)} {keyed : List (Nat × String)},
      mapOpt (keyFn sents) top = some keyed →
      keyed.map Prod.snd = top.map Prod.fst
      ∧ ∀ q ∈ keyed, indexOf? sents q.2 = some q.1 := by
  intro top
  induction top with
  | nil =>
    intro keyed h
    obtain rfl : ([] : List (Nat × String)) = keyed := Option.some.inj h
    exact ⟨rfl, by intro q hq; simp at hq⟩
  | cons p ps ih =>
    intro keyed h
    obtain ⟨y, ys, hx, hm, rfl⟩ := mapOpt_cons_split h
    obtain ⟨i, hi, hy⟩ := Option.map_eq_some'.mp hx
    cases hy
    obtain ⟨ihsnd, ihmem⟩ := ih hm
    constructor
    · rw [List.map_cons, ihsnd]
      rfl
    · intro q hq
      rcases List.mem_cons.mp hq with h' | h'
      · rw [h']
        exact hi
      · exact ihmem q h'

theorem ordered_summary_eq_some {sents : List String}
    {top : List (String × Nat)} (h : ∀ p ∈ top, p.1 ∈ sents) :
    ∃ l, ordered_summary sents top = some l := by
  have hne : ∀ p ∈ top, keyFn sents p ≠ none := by
    intro p hp
    obtain ⟨i, hi⟩ := indexOf?_isSome_of_mem (h p hp)
    simp [keyFn, hi]
  obtain ⟨keyed, hk⟩ := mapOpt_isSome hne
  refine ⟨(List.insertionSort idxLe keyed).map Prod.snd, ?_⟩
  unfold ordered_summary
  rw [show (fun p : String × Nat =>
      (indexOf? sents p.1).map (fun i => (i, p.1))) = keyFn sents from rfl, hk]

theorem ordered_summary_mem {sents : List String}
    {top : List (String × Nat)} {l : List String}
    (h : ordered_summary sents top = some l) :
    ∀ s, s ∈ l ↔ s ∈ top.map Prod.fst := by
  unfold ordered_summary at h
  rw [show (fun p : String × Nat =>
      (indexOf? sents p.1).map (fun i => (i, p.1))) = keyFn sents from rfl] at h
  cases hk : mapOpt (keyFn sents) top with
  | none => rw [hk] at h; cases h
  | some keyed =>
    rw [hk] at h
    obtain rfl := (Option.some.inj h).symm
    intro s
    have hperm : List.Perm ((List.insertionSort idxLe keyed).map Prod.snd)
        (keyed.map Prod.snd) := (List.perm_insertionSort idxLe keyed).map _
    rw [hperm.mem_iff, (keyed_props hk).1]

theorem nodup_fst_of_keyed {sents : List String} :
    ∀ {keyed : List (Nat × String)},
      (keyed.map Prod.snd).Nodup →
      (∀ q ∈ keyed, indexOf? sents q.2 = some q.1) →
      (keyed.map Prod.fst).Nodup := by
  intro keyed
  induction keyed with
  | nil => intro _ _; simp
  | cons q qs ih =>
    intro hnd hidx
    rw [List.map_cons, List.nodup_cons] at hnd ⊢
    refine ⟨?_, ih hnd.2 (fun q' hq' => hidx q' (List.mem_cons_of_mem q hq'))⟩
    intro hmem
    obtain ⟨q', hq', hfst⟩ := List.mem_map.mp hmem
    have h1 : indexOf? sents q.2 = some q.1 := hidx q (List.mem_cons_self q qs)
    have h2 : indexOf? sents q'.2 = some q'.1 :=
      hidx q' (List.mem_cons_of_mem q hq')
    rw [hfst] at h2
    have hq2 : q'.2 = q.2 := indexOf?_inj h2 h1
    exact hnd.1 (hq2 ▸ List.mem_map_of_mem Prod.snd hq')

theorem sorted_lt_of_sorted_le_nodup {l : List Nat}
    (hs : List.Sorted (· ≤ ·) l) (hn : l.Nodup) :
    List.Sorted (· < ·) l :=
  (hs.and hn).imp (fun h => lt_of_le_of_ne h.1 h.2)

theorem ordered_summary_sorted {sents : List String}
    {top : List (String × Nat)} {l : List String}
    (hnd : (top.map Prod.fst).Nodup)
    (h : ordered_summary sents top = some l) :
    List.Sorted (· < ·) (l.map (fun s => (indexOf? sents s).getD 0)) := by
  unfold ordered_summary at h
  rw [show (fun p : String × Nat =>
      (indexOf? sents p.1).map (fun i => (i, p.1))) = keyFn sents from rfl] at h
  cases hk : mapOpt (keyFn sents) top with
  | none => rw [hk] at h; cases h
  | some keyed =>
    rw [hk] at h
    obtain rfl := (Option.some.inj h).symm
    obtain ⟨hsnd, hidx⟩ := keyed_props hk
    have hidx' : ∀ q ∈ List.insertionSort idxLe keyed,
        indexOf? sents q.2 = some q.1 := by
      intro q hq
      exact hidx q ((List.perm_insertionSort idxLe keyed).mem_iff.mp hq)
    have hmapeq : (List.map Prod.snd (List.insertionSort idxLe keyed)).map
        (fun s => (indexOf? sents s).getD 0)
        = (List.insertionSort idxLe keyed).map Prod.fst := by
      rw [List.map_map]
      refine List.map_congr_left ?_
      intro q hq
      show (indexOf? sents q.2).getD 0 = q.1
      rw [hidx' q hq]
      rfl
    rw [hmapeq]
    have hsorted : List.Sorted idxLe (List.insertionSort idxLe keyed) :=
      List.sorted_insertionSort idxLe keyed
    have hle : List.Sorted (· ≤ ·)
        ((List.insertionSort idxLe keyed).map Prod.fst) :=
      List.Pairwise.map Prod.fst (fun a b hab => hab) hsorted
    have hnodup : ((List.insertionSort idxLe keyed).map Prod.fst).Nodup := by
      have hperm : List.Perm ((List.insertionSort idxLe keyed).map Prod.fst)
          (keyed.map Prod.fst) := (List.perm_insertionSort idxLe keyed).map _
      refine hperm.nodup_iff.mpr ?_
      refine nodup_fst_of_keyed ?_ hidx
      rw [hsnd]
      exact hnd
    exact sorted_lt_of_sorted_le_nodup hle hnodup

/-! ### Lemmas about `pyTake` and `summary_sentences` -/

theorem pyTake_sublist (n : Int) (l : List α) : List.Sublist (pyTake n l) l := by
  unfold pyTake
  split
  · exact List.take_sublist _ _
  · exact List.take_sublist _ _

theorem pyTake_mem {n : Int} {l : List α} {a : α} (h : a ∈ pyTake n l) :
    a ∈ l :=
  (pyTake_sublist n l).mem h

theorem pyTake_succ_mem {n : Int} (hn : 0 ≤ n) {l : List α} {a : α}
    (h : a ∈ pyTake n l) : a ∈ pyTake (n + 1) l := by
  unfold pyTake at h ⊢
  rw [if_pos hn] at h
  rw [if_pos (by omega)]
  have hnat : (n + 1).toNat = n.toNat + 1 := by omega
  rw [hnat]
  have heq : l.take n.toNat = (l.take (n.toNat + 1)).take n.toNat := by
    rw [List.take_take]
    have : min n.toNat (n.toNat + 1) = n.toNat := by omega
    rw [this]
  rw [heq] at h
  exact List.mem_of_mem_take h

theorem summary_sentences_mem {text : String} {n : Int} {p : String × Nat}
    (h : p ∈ summary_sentences text n) : p ∈ sentence_scores text := by
  unfold summary_sentences at h
  exact (List.perm_insertionSort scoreDescLe (sentence_scores text)).mem_iff.mp
    (pyTake_mem h)

theorem summary_sentences_keys_mem {text : String} {n : Int} {p : String × Nat}
    (h : p ∈ summary_sentences text n) :
    p.1 ∈ simple_sentence_tokenize text :=
  sentence_scores_keys_sub (List.mem_map_of_mem Prod.fst (summary_sentences_mem h))

theorem summary_sentences_keys_nodup (text : String) (n : Int) :
    ((summary_sentences text n).map Prod.fst).Nodup := by
  have hsub : List.Sublist ((summary_sentences text n).map Prod.fst)
      ((List.insertionSort scoreDescLe (sentence_scores text)).map Prod.fst) :=
    (pyTake_sublist n _).map Prod.fst
  refine hsub.nodup ?_
  have hperm : List.Perm
      ((List.insertionSort scoreDescLe (sentence_scores text)).map Prod.fst)
      ((sentence_scores text).map Prod.fst) :=
    (List.perm_insertionSort scoreDescLe (sentence_scores text)).map _
  exact hperm.nodup_iff.mpr (sentence_scores_keys_nodup text)

/-! ### Lemmas about `sentence_score` and branch conditions -/

theorem score_foldl_aux (freq : List (String × Nat)) :
    ∀ (l : List String) (acc : Nat),
      l.foldl (fun acc w =>
        if (dictGet? freq w).isSome then acc + (dictGet? freq w).getD 0
        else acc) acc
      = acc + (l.map (fun w => (dictGet? freq w).getD 0)).sum := by
  intro l
  induction l with
  | nil => intro acc; simp
  | cons w l ih =>
    intro acc
    rw [List.foldl_cons, List.map_cons, List.sum_cons]
    cases h : dictGet? freq w with
    | none =>
      rw [ih]
      simp [h]
    | some v =>
      rw [ih]
      simp only [h, Option.isSome_some, if_pos, Option.getD_some]
      omega

theorem sentence_score_eq_sum (freq : List (String × Nat)) (s : String) :
    sentence_score freq s
      = ((simple_word_tokenize s).map
          (fun w => (dictGet? freq w).getD 0)).sum := by
  unfold sentence_score
  rw [score_foldl_aux]
  omega

theorem pyWords_empty : pyWords "" = [] := rfl

theorem text_ne_empty_of_words {text : String}
    (h : 10 ≤ (pyWords text).length) : ¬ text = "" := by
  intro he
  subst he
  rw [pyWords_empty] at h
  simp at h

/-! ### Claim theorems -/

/-- C1: for every input text whose whitespace-separated word count is below
10 (including the empty string) and every integer `n`,
`extractive_summarize text n` returns exactly the literal string
"Text is too short to summarize.", and `abstractive_summarize` returns the
same fixed string for any external service behaviour, regardless of `n`. -/
theorem c1_short_text_fallback (text : String) (n : Int)
    (respond : String → String) (h : (pyWords text).length < 10) :
    extractive_summarize text n = "Text is too short to summarize."
    ∧ abstractive_summarize respond text = "Text is too short to summarize." := by
  constructor
  · unfold extractive_summarize
    rw [if_pos (Or.inr h)]
  · unfold abstractive_summarize
    rw [if_pos (Or.inr h)]

/-- Witness for C1 at the empty string. -/
theorem c1_witness :
    (pyWords "").length < 10
    ∧ extractive_summarize "" 3 = "Text is too short to summarize."
    ∧ abstractive_summarize (fun _ => "service output") ""
        = "Text is too short to summarize." :=
  ⟨by decide, c1_short_text_fallback "" 3 (fun _ => "service output") (by decide)⟩

/-- C2 counterexample: a ten-word text with one sentence and a trailing
period.  The code returns the raw text (with its period), which differs from
the tokenized sentences joined by single spaces, refuting the claim that the
output is the sentences joined exactly as tokenized. -/
theorem c2_counterexample :
    10 ≤ (pyWords "one two three four five six seven eight nine ten.").length
    ∧ ((simple_sentence_tokenize
        "one two three four five six seven eight nine ten.").length : Int) ≤ 1
    ∧ extractive_summarize
        "one two three four five six seven eight nine ten." 1
      ≠ String.intercalate " " (simple_sentence_tokenize
          "one two three four five six seven eight nine ten.") := by
  refine ⟨by decide, by decide, ?_⟩
  decide

/-- C2 amended: when the word count is at least 10 and the sentence count is
at most `n`, `extractive_summarize` returns the input text itself, unchanged
(not the re-joined tokenized sentences). -/
theorem c2_amended_returns_text (text : String) (n : Int)
    (h10 : 10 ≤ (pyWords text).length)
    (hn : ((simple_sentence_tokenize text).length : Int) ≤ n) :
    extractive_summarize text n = text := by
  unfold extractive_summarize
  rw [if_neg ?hcond, if_pos hn]
  case hcond =>
    push_neg
    exact ⟨text_ne_empty_of_words h10, by omega⟩

/-- Witness for the amended C2. -/
theorem c2_witness :
    10 ≤ (pyWords "a b c d e f g h i j").length
    ∧ ((simple_sentence_tokenize "a b c d e f g h i j").length : Int) ≤ 1
    ∧ extractive_summarize "a b c d e f g h i j" 1 = "a b c d e f g h i j" :=
  ⟨by decide, by decide, c2_amended_returns_text _ 1 (by decide) (by decide)⟩

/-- C3 counterexample: `preprocess_text "a ! b"` collapses whitespace first
and removes the bang afterwards, leaving two consecutive spaces, so the
output is not whitespace-collapsed. -/
theorem c3_counterexample :
    (preprocess_text "a ! b").toList = ['a', ' ', ' ', 'b']
    ∧ preprocess_text "a ! b" ≠ "a b" := by
  constructor
  · decide
  · decide

/-- C3 amended: `preprocess_text` collapses whitespace runs, then removes
every character that is not alphanumeric, underscore, whitespace or a
period, then trims; because removal happens after collapsing, consecutive
spaces can reappear.  What does hold of the result: it contains only the
allowed characters, it is trimmed (a fixed point of `trimL`), and empty
input yields empty output. -/
theorem c3_amended_preprocess (text : String) :
    ((preprocess_text text).toList.all
      (fun c => isWordChar c || c.isWhitespace || c = '.')) = true
    ∧ trimL (preprocess_text text).toList = (preprocess_text text).toList
    ∧ preprocess_text "" = "" := by
  refine ⟨?_, ?_, rfl⟩
  · rw [List.all_eq_true]
    intro c hc
    have hc' : c ∈ (collapseWsList text.toList).filter
        (fun c => isWordChar c || c.isWhitespace || c = '.') := mem_trimL hc
    have hp := List.of_mem_filter hc'
    simpa using hp
  · exact trimL_trimL _

/-- C4: whenever the selection branch runs (word count at least 10 and more
sentences than `n`), the summary is the join of the selected sentence list,
and the original position indices (`sentences.index`) of that list are
strictly increasing: output order is original document order, regardless of
score ranking. -/
theorem c4_order_preservation (text : String) (n : Int)
    (h10 : 10 ≤ (pyWords text).length)
    (hn : n < ((simple_sentence_tokenize text).length : Int)) :
    ∃ l, ordered_summary (simple_sentence_tokenize text)
        (summary_sentences text n) = some l
      ∧ extractive_summarize text n = String.intercalate " " l
      ∧ List.Sorted (· < ·)
          (l.map (fun s =>
            (indexOf? (simple_sentence_tokenize text) s).getD 0)) := by
  obtain ⟨l, hl⟩ := ordered_summary_eq_some
    (fun p hp => summary_sentences_keys_mem hp)
  refine ⟨l, hl, ?_,
    ordered_summary_sorted (summary_sentences_keys_nodup text n) hl⟩
  unfold extractive_summarize
  rw [if_neg ?hcond, if_neg (by omega), hl]
  case hcond =>
    push_neg
    exact ⟨text_ne_empty_of_words h10, by omega⟩

/-- Witness for C4 on a two-sentence text with selection of one sentence. -/
theorem c4_witness :
    10 ≤ (pyWords "a b c d e f g h i. j k.").length
    ∧ (1 : Int) < ((simple_sentence_tokenize
        "a b c d e f g h i. j k.").length : Int)
    ∧ ∃ l, ordered_summary (simple_sentence_tokenize
          "a b c d e f g h i. j k.")
          (summary_sentences "a b c d e f g h i. j k." 1) = some l
        ∧ extractive_summarize "a b c d e f g h i. j k." 1
            = String.intercalate " " l
        ∧ List.Sorted (· < ·)
            (l.map (fun s =>
              (indexOf? (simple_sentence_tokenize
                "a b c d e f g h i. j k.") s).getD 0)) :=
  ⟨by decide, by decide,
    c4_order_preservation "a b c d e f g h i. j k." 1 (by decide) (by decide)⟩

/-- C5: for a nonnegative requested count `n` with `n + 1` still at most the
sentence count, every sentence selected at count `n` is still selected at
count `n + 1`.  (The property holds even at score ties: both calls truncate
the same stably sorted list.) -/
theorem c5_monotonicity (text : String) (n : Int) (s : String)
    (hn : 0 ≤ n)
    (hcount : n + 1 ≤ ((simple_sentence_tokenize text).length : Int))
    (hs : s ∈ summary_list text n) :
    s ∈ summary_list text (n + 1) := by
  unfold summary_list at hs ⊢
  rw [if_neg (by omega)] at hs
  obtain ⟨l, hl⟩ := @ordered_summary_eq_some (simple_sentence_tokenize text)
    (summary_sentences text n)
    (fun p hp => @summary_sentences_keys_mem text n p hp)
  rw [hl] at hs
  have hsl : s ∈ l := hs
  have hmem := (ordered_summary_mem hl s).mp hsl
  by_cases hc : ((simple_sentence_tokenize text).length : Int) ≤ n + 1
  · rw [if_pos hc]
    obtain ⟨p, hp, rfl⟩ := List.mem_map.mp hmem
    exact summary_sentences_keys_mem hp
  · rw [if_neg hc]
    obtain ⟨l', hl'⟩ := @ordered_summary_eq_some (simple_sentence_tokenize text)
      (summary_sentences text (n + 1))
      (fun p hp => @summary_sentences_keys_mem text (n + 1) p hp)
    rw [hl']
    show s ∈ l'
    refine (ordered_summary_mem hl' s).mpr ?_
    obtain ⟨p, hp, rfl⟩ := List.mem_map.mp hmem
    refine List.mem_map_of_mem Prod.fst ?_
    unfold summary_sentences at hp ⊢
    exact pyTake_succ_mem hn hp

/-- Witness for C5: the top-scored sentence at `n = 1` is still present at
`n = 2`. -/
theorem c5_witness :
    (0 : Int) ≤ 1
    ∧ (1 : Int) + 1 ≤ ((simple_sentence_tokenize
        "a b c d e f g h i. j k.").length : Int)
    ∧ "a b c d e f g h i" ∈ summary_list "a b c d e f g h i. j k." 1
    ∧ "a b c d e f g h i" ∈ summary_list "a b c d e f g h i. j k." (1 + 1) :=
  ⟨by decide, by decide, by decide,
    c5_monotonicity "a b c d e f g h i. j k." 1 "a b c d e f g h i"
      (by decide) (by decide) (by decide)⟩

/-- C6: a sentence's score is the sum, over its unfiltered word tokens, of
the document frequency table's entry for that token (absent keys — filtered
stop words — contributing zero, as the table lookup misses), equivalently
the sum over distinct tokens of (occurrences in the sentence) times the
document-wide frequency; the score lives in `Nat`, hence is non-negative. -/
theorem c6_sentence_score (text s : String) :
    sentence_score (word_freq text) s
      = ((simple_word_tokenize s).map
          (fun w => (dictGet? (word_freq text) w).getD 0)).sum
    ∧ sentence_score (word_freq text) s
      = ∑ w in (simple_word_tokenize s).toFinset,
          (simple_word_tokenize s).count w
            * (dictGet? (word_freq text) w).getD 0
    ∧ ∀ w, w ∉ dictKeys (word_freq text) →
        dictGet? (word_freq text) w = none := by
  refine ⟨sentence_score_eq_sum _ _, ?_,
    fun w hw => dictGet?_eq_none_of_not_mem hw⟩
  rw [sentence_score_eq_sum]
  rw [Finset.sum_list_map_count]
  simp [smul_eq_mul]

/-- Witness for C6: a key outside the table looks up to `none`. -/
theorem c6_witness :
    ("xyz" ∉ dictKeys (word_freq "")) ∧ dictGet? (word_freq "") "xyz" = none :=
  ⟨by decide, (c6_sentence_score "" "s").2.2 "xyz" (by decide)⟩

/-- C7: the frequency table never has a stop word or an empty string as a
key; a document whose word tokens are all stop words yields an empty table,
and then every sentence scores zero. -/
theorem c7_stopword_exclusion (text : String) :
    (∀ k ∈ dictKeys (word_freq text), k ∉ stop_words ∧ k ≠ "")
    ∧ ((∀ w ∈ simple_word_tokenize text, w ∈ stop_words) →
        word_freq text = []
        ∧ ∀ s ∈ simple_sentence_tokenize text,
            sentence_score (word_freq text) s = 0) := by
  constructor
  · intro k hk
    have hf := word_freq_keys_sub hk
    have hp := List.of_mem_filter hf
    rw [Bool.and_eq_true] at hp
    constructor
    · exact of_decide_eq_true hp.1
    · intro he
      subst he
      have h2 := hp.2
      rw [show ("" : String).toList = [] from rfl] at h2
      rw [show trimL [] = [] from rfl] at h2
      simp at h2
  · intro hall
    have hfw : filteredWords text = [] := by
      unfold filteredWords
      rw [List.filter_eq_nil_iff]
      intro w hw
      simp only [Bool.and_eq_true, decide_eq_true_eq, not_and]
      intro h1
      exact absurd (hall w hw) h1
    have hwf : word_freq text = [] := by
      unfold word_freq
      rw [hfw]
      rfl
    refine ⟨hwf, ?_⟩
    intro s hs
    rw [hwf, sentence_score_eq_sum]
    refine List.sum_eq_zero ?_
    intro x hx
    obtain ⟨w, _, rfl⟩ := List.mem_map.mp hx
    rfl

/-- Witness for C7 on a document made only of stop words and punctuation. -/
theorem c7_witness :
    (∀ w ∈ simple_word_tokenize "He she it. They them.", w ∈ stop_words)
    ∧ word_freq "He she it. They them." = [] :=
  ⟨by decide,
    ((c7_stopword_exclusion "He she it. They them.").2 (by decide)).1⟩

/-- C8: every sentence produced by the tokenizer is non-empty and already
trimmed, and a trailing terminator never produces a phantom empty sentence
(appending a period leaves the sentence list unchanged). -/
theorem c8_sentence_tokenizer (text : String) :
    (∀ s ∈ simple_sentence_tokenize text, s ≠ "" ∧ trimL s.toList = s.toList)
    ∧ simple_sentence_tokenize (text ++ ".") = simple_sentence_tokenize text := by
  refine ⟨?_, simple_sentence_tokenize_append_dot text⟩
  intro s hs
  obtain ⟨hne, htrim⟩ := mem_simple_sentence_tokenize hs
  exact ⟨fun he => hne (by rw [he]; rfl), htrim⟩

/-- Witness for C8 on a small text. -/
theorem c8_witness :
    ("a" ∈ simple_sentence_tokenize "a. b!  c")
    ∧ ("a" ≠ "" ∧ trimL "a".toList = "a".toList) :=
  ⟨by decide, (c8_sentence_tokenizer "a. b!  c").1 "a" (by decide)⟩

/-- C9: `extractive_summarize` is a pure function of its two arguments —
calls with equal texts and equal counts yield equal strings.  In this
embedding the function reads no state besides the fixed stop-word set. -/
theorem c9_deterministic (t1 t2 : String) (n1 n2 : Int)
    (ht : t1 = t2) (hn : n1 = n2) :
    extractive_summarize t1 n1 = extractive_summarize t2 n2 := by
  rw [ht, hn]

/-- Witness for C9. -/
theorem c9_witness :
    extractive_summarize "repeat call" 0 = extractive_summarize "repeat call" 0 :=
  c9_deterministic "repeat call" "repeat call" 0 0 rfl rfl

/-- C10: `extractive_summarize` is total and its exception branch is
unreachable: the `sentences.index` lookups always succeed (every scored key
is a sentence of the document), so the function always returns the
too-short message, the raw text, or the joined selection — never the
"Error in extractive summarization" string of the `except` clause. -/
theorem c10_total_no_exception (text : String) (n : Int) :
    (∃ l, ordered_summary (simple_sentence_tokenize text)
        (summary_sentences text n) = some l)
    ∧ (extractive_summarize text n = "Text is too short to summarize."
       ∨ extractive_summarize text n = text
       ∨ extractive_summarize text n = String.intercalate " "
            ((ordered_summary (simple_sentence_tokenize text)
              (summary_sentences text n)).getD [])) := by
  obtain ⟨l, hl⟩ := ordered_summary_eq_some
    (fun p hp => summary_sentences_keys_mem hp)
  refine ⟨⟨l, hl⟩, ?_⟩
  unfold extractive_summarize
  by_cases h1 : text = "" ∨ (pyWords text).length < 10
  · rw [if_pos h1]
    exact Or.inl rfl
  · rw [if_neg h1]
    by_cases h2 : ((simple_sentence_tokenize text).length : Int) ≤ n
    · rw [if_pos h2]
      exact Or.inr (Or.inl rfl)
    · rw [if_neg h2, hl]
      exact Or.inr (Or.inr rfl)
